import Mathlib

/-!
Verification of the ECS core of the `ethereal` engine.

The embedding follows the Rust source:
* `src/runtime/ecs/query.rs` — the `Query` type and its `new`/`read`/`write`/`execute`;
* `src/runtime/engine/builder.rs` — `Builder::module` and `Builder::register`.

The entity registry, component stores, guard layer and scheduler live in a
crate whose source is not available here; those parts are modelled from the
specification (each such definition is marked `Modelled from the spec:`).

Machine integers: the component bitmask is a `u128` in the source; bitwise
`&`, `|` and `==` on `u128` agree with the same operations on `Nat` for
values below `2^128`, and neither operation can grow past its operands'
bits, so the mask is embedded as `Nat`.
-/

namespace Ethereal

/-- An entity identifier: a slot index plus a generation counter
(spec §3: "an opaque identifier composed of a slot index and a generation
counter"). -/
structure Entity where
  index : Nat
  generation : Nat
deriving DecidableEq, Repr

/-- Per-entity metadata: the bitmask of component-variant bits currently
attached (`EntityInfo` in the source, field `components : u128`). -/
structure EntityInfo where
  components : Nat
deriving DecidableEq, Repr

/-- `EntityInfo::default()`: empty bitmask. -/
def EntityInfo.default : EntityInfo := ⟨0⟩

/-- A component variant identifier: a small integer used as a bit position
(`VariantId` in the source). -/
abbrev VariantId := Nat

/-- `VariantId::to_mask()`: the single-bit mask `1 << id`. -/
def VariantId.toMask (v : VariantId) : Nat := 1 <<< v

/-- The part of `World` that `Query::execute` reads: `world.entities`, the
registry map from live entity to its `EntityInfo`.  The map is embedded as
an association list; the registry keeps one entry per live entity. -/
structure World where
  entities : List (Entity × EntityInfo)

/-- `Query` from `query.rs`: just a required-capability `EntityInfo`. -/
structure Query where
  info : EntityInfo
deriving DecidableEq, Repr

/-- `Query::new()`: the default (empty) requirement. -/
def Query.new : Query := ⟨EntityInfo.default⟩

/-- `Query::read::<T>(_ : &ReadStorage<T>)`: ORs `T::VARIANT_ID.to_mask()`
into the required mask.  The guard argument is ignored by the source
(`_` pattern); only the type's variant id matters, so the embedding takes
the variant id itself. -/
def Query.read (q : Query) (t : VariantId) : Query :=
  ⟨⟨q.info.components ||| t.toMask⟩⟩

/-- `Query::write::<T>(_ : &WriteStorage<T>)`: identical body to `read`. -/
def Query.write (q : Query) (t : VariantId) : Query :=
  ⟨⟨q.info.components ||| t.toMask⟩⟩

/-- `Query::execute(world)`: filter the registry for entities whose bitmask
ANDed with the required mask equals the required mask, returning the
entity ids.  (The source locks the `entities` mutex; single-threaded, the
lock always succeeds.) -/
def Query.execute (q : Query) (w : World) : List Entity :=
  (w.entities.filter
      (fun p => p.2.components &&& q.info.components == q.info.components)).map
    Prod.fst

/-! ### Bitmask lemmas -/

theorem land_zero (n : Nat) : n &&& 0 = 0 := by
  apply Nat.eq_of_testBit_eq
  intro i
  simp [Nat.testBit_land]

theorem zero_lor_eq (n : Nat) : 0 ||| n = n := by
  apply Nat.eq_of_testBit_eq
  intro i
  simp [Nat.testBit_lor]

theorem lor_self_eq (n : Nat) : n ||| n = n := by
  apply Nat.eq_of_testBit_eq
  intro i
  simp [Nat.testBit_lor]

/-- `m &&& q = q` holds exactly when every bit of `q` is a bit of `m`. -/
theorem land_eq_right_iff (m q : Nat) :
    m &&& q = q ↔ ∀ i, q.testBit i = true → m.testBit i = true := by
  constructor
  · intro h i hq
    have := congrArg (fun x => x.testBit i) h
    simp only [Nat.testBit_land] at this
    rcases hm : m.testBit i with _ | _
    · rw [hm] at this; simp at this; rw [hq] at this; exact absurd this.symm (by simp)
    · rfl
  · intro h
    apply Nat.eq_of_testBit_eq
    intro i
    simp only [Nat.testBit_land]
    rcases hq : q.testBit i with _ | _
    · simp
    · simp [h i hq]

theorem land_lor_eq_iff (m a b : Nat) :
    m &&& (a ||| b) = (a ||| b) ↔ (m &&& a = a ∧ m &&& b = b) := by
  simp only [land_eq_right_iff, Nat.testBit_lor]
  constructor
  · intro h
    constructor
    · intro i hi; exact h i (by simp [hi])
    · intro i hi; exact h i (by simp [hi])
  · rintro ⟨ha, hb⟩ i hi
    rcases Bool.or_eq_true_iff.mp hi with hi | hi
    · exact ha i hi
    · exact hb i hi

/-- A mask that is the required mask OR-ed with any extra bits passes the
required-mask test. -/
theorem lor_extra_matches (q extra : Nat) : (q ||| extra) &&& q = q := by
  rw [land_eq_right_iff]
  intro i hi
  simp [Nat.testBit_lor, hi]

/-! ### Query membership -/

/-- Unfold membership in a query result. -/
theorem mem_execute_iff (q : Query) (w : World) (e : Entity) :
    e ∈ q.execute w ↔
      ∃ info, (e, info) ∈ w.entities ∧
        info.components &&& q.info.components = q.info.components := by
  unfold Query.execute
  constructor
  · intro h
    rcases List.mem_map.mp h with ⟨p, hp, hfst⟩
    rcases List.mem_filter.mp hp with ⟨hmem, hcond⟩
    obtain ⟨e', info⟩ := p
    cases hfst
    exact ⟨info, hmem, beq_iff_eq.mp hcond⟩
  · rintro ⟨info, hmem, hcond⟩
    apply List.mem_map.mpr
    refine ⟨(e, info), List.mem_filter.mpr ⟨hmem, ?_⟩, rfl⟩
    simpa using hcond

/-- In a registry with one entry per entity, two entries with the same
entity id carry the same info. -/
theorem info_unique {l : List (Entity × EntityInfo)} {e : Entity}
    {a b : EntityInfo} (hkeys : (l.map Prod.fst).Nodup)
    (ha : (e, a) ∈ l) (hb : (e, b) ∈ l) : a = b := by
  induction l with
  | nil => cases ha
  | cons p rest ih =>
    simp only [List.map_cons, List.nodup_cons] at hkeys
    rcases List.mem_cons.mp ha with ha' | ha' <;>
      rcases List.mem_cons.mp hb with hb' | hb'
    · exact congrArg Prod.snd (ha'.trans hb'.symm)
    · exfalso
      exact hkeys.1 (by simpa [← ha'] using List.mem_map_of_mem Prod.fst hb')
    · exfalso
      exact hkeys.1 (by simpa [← hb'] using List.mem_map_of_mem Prod.fst ha')
    · exact ih hkeys.2 ha' hb'

/-- C1: for every world and every query, an entity appears in the result of
`Query.execute` iff its live-component bitmask ANDed with the required mask
equals the required mask; an entity whose mask is the required mask plus any
extra bits is still matched. -/
theorem query_matches_iff_mask_subset (w : World) (q : Query) (e : Entity)
    (info : EntityInfo) (hkeys : (w.entities.map Prod.fst).Nodup)
    (he : (e, info) ∈ w.entities) :
    (e ∈ q.execute w ↔
      info.components &&& q.info.components = q.info.components)
    ∧ (∀ extra, info.components = q.info.components ||| extra →
        e ∈ q.execute w) := by
  constructor
  · constructor
    · intro h
      rcases (mem_execute_iff q w e).mp h with ⟨info', hmem, hcond⟩
      rwa [info_unique hkeys he hmem]
    · intro h
      exact (mem_execute_iff q w e).mpr ⟨info, he, h⟩
  · intro extra hx
    exact (mem_execute_iff q w e).mpr ⟨info, he, by rw [hx]; exact lor_extra_matches _ _⟩

theorem query_matches_iff_mask_subset_witness :
    (⟨0, 0⟩ : Entity) ∈ (Query.new.read 0).execute ⟨[(⟨0, 0⟩, ⟨3⟩)]⟩ :=
  ((query_matches_iff_mask_subset ⟨[(⟨0, 0⟩, ⟨3⟩)]⟩ (Query.new.read 0)
      ⟨0, 0⟩ ⟨3⟩ (by decide) (by decide)).1).mpr (by decide)

/-- C2: a query built by `Query::new()` with no `.read`/`.write` calls has an
empty required mask and, when executed, returns every live entity of the
registry (in registry order). -/
theorem empty_query_returns_all (w : World) :
    Query.new.execute w = w.entities.map Prod.fst := by
  unfold Query.execute
  congr 1
  apply List.filter_eq_self.mpr
  intro p _
  simp [Query.new, EntityInfo.default, land_zero]

/-- C3: the set of entities returned by a query requiring both T and U is
the intersection of the sets returned by the queries requiring only T and
only U. -/
theorem query_and_is_intersection (w : World) (t u : VariantId)
    (hkeys : (w.entities.map Prod.fst).Nodup) :
    (((Query.new.read t).read u).execute w).toFinset =
      ((Query.new.read t).execute w).toFinset ∩
        ((Query.new.read u).execute w).toFinset := by
  ext e
  simp only [List.mem_toFinset, Finset.mem_inter, mem_execute_iff,
    Query.read, Query.new, EntityInfo.default, zero_lor_eq]
  constructor
  · rintro ⟨info, hmem, hcond⟩
    rcases (land_lor_eq_iff _ _ _).mp hcond with ⟨h1, h2⟩
    exact ⟨⟨info, hmem, h1⟩, ⟨info, hmem, h2⟩⟩
  · rintro ⟨⟨i1, hm1, h1⟩, ⟨i2, hm2, h2⟩⟩
    cases info_unique hkeys hm1 hm2
    exact ⟨i1, hm1, (land_lor_eq_iff _ _ _).mpr ⟨h1, h2⟩⟩

theorem query_and_is_intersection_witness :
    ((((Query.new.read 0).read 1).execute
        ⟨[(⟨0, 0⟩, ⟨3⟩), (⟨1, 0⟩, ⟨1⟩)]⟩).toFinset =
      ((Query.new.read 0).execute ⟨[(⟨0, 0⟩, ⟨3⟩), (⟨1, 0⟩, ⟨1⟩)]⟩).toFinset ∩
        ((Query.new.read 1).execute ⟨[(⟨0, 0⟩, ⟨3⟩), (⟨1, 0⟩, ⟨1⟩)]⟩).toFinset) :=
  query_and_is_intersection ⟨[(⟨0, 0⟩, ⟨3⟩), (⟨1, 0⟩, ⟨1⟩)]⟩ 0 1 (by decide)

/-- C4: `.read` and `.write` each OR the component's variant bit into the
required mask; the mask (hence the executed result) is unchanged by
reordering the calls, by repeating a call, or by substituting `.write` for
`.read` of the same type. -/
theorem query_read_write_or_invariance (q : Query) (t u : VariantId) (w : World) :
    (q.read t).info.components = q.info.components ||| t.toMask
    ∧ q.write t = q.read t
    ∧ (q.read t).read u = (q.read u).read t
    ∧ (q.read t).read t = q.read t
    ∧ ((q.read t).read u).execute w = ((q.read u).read t).execute w
    ∧ ((q.read t).read t).execute w = (q.read t).execute w
    ∧ ((q.read t).write u).execute w = ((q.read t).read u).execute w := by
  have hcomm : (q.read t).read u = (q.read u).read t := by
    show Query.mk ⟨(q.info.components ||| t.toMask) ||| u.toMask⟩ =
      Query.mk ⟨(q.info.components ||| u.toMask) ||| t.toMask⟩
    rw [Nat.lor_assoc, Nat.lor_comm t.toMask, ← Nat.lor_assoc]
  have hidem : (q.read t).read t = q.read t := by
    show Query.mk ⟨(q.info.components ||| t.toMask) ||| t.toMask⟩ =
      Query.mk ⟨q.info.components ||| t.toMask⟩
    rw [Nat.lor_assoc, lor_self_eq]
  exact ⟨rfl, rfl, hcomm, hidem, by rw [hcomm], by rw [hidem], rfl⟩

/-- C5: a query requiring a component type held by zero entities executes to
the empty list.  (`Query.execute` in the embedding is a total function on
every mask and world state, mirroring the source, which can only return a
`Vec` — there is no error path.) -/
theorem query_zero_holders_empty (w : World) (q : Query) (t : VariantId)
    (hreq : (q.info.components).testBit t = true)
    (hnone : ∀ p ∈ w.entities, (p.2.components).testBit t = false) :
    q.execute w = [] := by
  unfold Query.execute
  have : w.entities.filter
      (fun p => p.2.components &&& q.info.components == q.info.components) = [] := by
    apply List.filter_eq_nil_iff.mpr
    intro p hp
    simp only [beq_iff_eq]
    intro hcond
    have hbit := (land_eq_right_iff _ _).mp hcond t hreq
    rw [hnone p hp] at hbit
    exact Bool.false_ne_true hbit
  rw [this, List.map_nil]

theorem query_zero_holders_empty_witness :
    (Query.new.read 0).execute ⟨[(⟨0, 0⟩, ⟨2⟩)]⟩ = [] :=
  query_zero_holders_empty ⟨[(⟨0, 0⟩, ⟨2⟩)]⟩ (Query.new.read 0) 0
    (by decide) (by decide)

/-! ### Builder registration (`builder.rs`, `Builder::register`)

`Builder.registers` is a `HashMap<TypeId, Box<dyn Any>>` whose entry for a
value type `T` holds a `Vec<T>`; `register` looks the `Vec` up (inserting an
empty one when absent) and pushes the value.  Type ids and values are both
embedded as `Nat`, the map as an association list. -/

structure BuilderRegs where
  registers : List (Nat × List Nat)

/-- Push `v` onto the vector stored under key `tid`, adding the entry when
the key is absent (the `match registers.get_mut(&type_id)` of the source). -/
def insertOrPush : List (Nat × List Nat) → Nat → Nat → List (Nat × List Nat)
  | [], tid, v => [(tid, [v])]
  | (k, vec) :: rest, tid, v =>
    if k = tid then (k, vec ++ [v]) :: rest
    else (k, vec) :: insertOrPush rest tid v

/-- `Builder::register::<T>(register)`. -/
def BuilderRegs.register (b : BuilderRegs) (tid v : Nat) : BuilderRegs :=
  ⟨insertOrPush b.registers tid v⟩

/-- The values registered so far under a type id. -/
def valuesOf (rs : List (Nat × List Nat)) (tid : Nat) : List Nat :=
  ((rs.find? (fun p => p.1 == tid)).map Prod.snd).getD []

def BuilderRegs.values (b : BuilderRegs) (tid : Nat) : List Nat :=
  valuesOf b.registers tid

/-- Modelled from the spec (and visible in `query.rs`): a component type's
variant bit is the trait constant `T::VARIANT_ID.to_mask()` — a pure
function of the type, independent of all builder state. -/
def assignedVariantMask (_b : BuilderRegs) (t : VariantId) : Nat := t.toMask

theorem valuesOf_insertOrPush_same (rs : List (Nat × List Nat)) (tid v : Nat) :
    valuesOf (insertOrPush rs tid v) tid = valuesOf rs tid ++ [v] := by
  induction rs with
  | nil => simp [insertOrPush, valuesOf, List.find?]
  | cons p rest ih =>
    obtain ⟨k, vec⟩ := p
    by_cases hk : k = tid
    · subst hk
      simp [insertOrPush, valuesOf, List.find?]
    · simp only [insertOrPush, if_neg hk]
      have hbeq : (k == tid) = false := by simpa using hk
      simp only [valuesOf, List.find?, hbeq] at ih ⊢
      exact ih

theorem valuesOf_insertOrPush_other (rs : List (Nat × List Nat))
    (tid v tid' : Nat) (h : tid' ≠ tid) :
    valuesOf (insertOrPush rs tid v) tid' = valuesOf rs tid' := by
  induction rs with
  | nil =>
    have hbeq : (tid == tid') = false := by simpa using (Ne.symm h)
    simp [insertOrPush, valuesOf, List.find?, hbeq]
  | cons p rest ih =>
    obtain ⟨k, vec⟩ := p
    by_cases hk : k = tid
    · subst hk
      have hbeq : (k == tid') = false := by simpa using (fun hh => h hh.symm)
      simp [insertOrPush, valuesOf, List.find?, hbeq]
    · simp only [insertOrPush, if_neg hk]
      by_cases hk' : k = tid'
      · subst hk'
        simp [valuesOf, List.find?]
      · have hbeq : (k == tid') = false := by simpa using hk'
        simp only [valuesOf, List.find?, hbeq] at ih ⊢
        exact ih

/-- C6: registering a value already registered under its type id does not
change the set of registered values under any key (the push appends a
duplicate, leaving the set as it was), and the variant bit assigned to any
component type — a constant of the type — is untouched, so no other type's
bit can shift. -/
theorem reregister_leaves_registrations (b : BuilderRegs) (tid v : Nat)
    (h : v ∈ b.values tid) :
    (∀ tid' w, w ∈ (b.register tid v).values tid' ↔ w ∈ b.values tid')
    ∧ (∀ t : VariantId,
        assignedVariantMask (b.register tid v) t = assignedVariantMask b t) := by
  constructor
  · intro tid' w
    by_cases htid : tid' = tid
    · subst htid
      show w ∈ valuesOf (insertOrPush b.registers tid' v) tid' ↔ _
      rw [valuesOf_insertOrPush_same]
      simp only [List.mem_append, List.mem_singleton]
      constructor
      · rintro (hw | rfl)
        · exact hw
        · exact h
      · intro hw; exact Or.inl hw
    · show w ∈ valuesOf (insertOrPush b.registers tid v) tid' ↔ _
      rw [valuesOf_insertOrPush_other _ _ _ _ htid]
      exact Iff.rfl
  · intro t; rfl

theorem reregister_leaves_registrations_witness :
    (9 ∈ ((⟨[(5, [7])]⟩ : BuilderRegs).register 5 7).values 5 ↔
      9 ∈ (⟨[(5, [7])]⟩ : BuilderRegs).values 5) :=
  (reregister_leaves_registrations ⟨[(5, [7])]⟩ 5 7 (by decide)).1 5 9

/-! ### Builder module list (`builder.rs`, `Builder::module`)

`Builder.modules` is a `Vec<ModuleEntry>`; a module is identified by its
`TypeId` (embedded as `Nat`).  `Builder::module::<T>()` returns unchanged
when `T`'s id is already on the list, otherwise runs `T::depends_on`
(which calls `builder.module::<D>()` for each dependency `D`, modelled by
the function `deps`) and then pushes `T`'s entry.  The Rust recursion
terminates only on acyclic dependency graphs; the embedding makes the
recursion depth explicit as `fuel` — any `fuel` above the module's rank in
a ranking of the DAG reproduces the source behaviour. -/

def addModule (deps : Nat → List Nat) : Nat → List Nat → Nat → List Nat
  | 0, l, _ => l
  | fuel + 1, l, m =>
    if m ∈ l then l
    else ((deps m).foldl (addModule deps fuel) l) ++ [m]

/-- A sequence of top-level `Builder::module` calls starting from the empty
list, each given enough fuel for its dependency depth. -/
def runCalls (deps : Nat → List Nat) (rank : Nat → Nat) (ms : List Nat) : List Nat :=
  ms.foldl (fun l m => addModule deps (rank m + 1) l m) []

/-- Every element's dependencies occur strictly earlier in the list:
however the list is split around an element `x`, all of `x`'s dependencies
already sit in the part before `x`. -/
def depsBefore (deps : Nat → List Nat) (l : List Nat) : Prop :=
  ∀ p x s, l = p ++ x :: s → ∀ d ∈ deps x, d ∈ p

theorem foldl_extends (f : List Nat → Nat → List Nat)
    (hf : ∀ l x, ∃ t, f l x = l ++ t) :
    ∀ (ms : List Nat) (l : List Nat), ∃ t, ms.foldl f l = l ++ t := by
  intro ms
  induction ms with
  | nil => intro l; exact ⟨[], by simp⟩
  | cons x rest ih =>
    intro l
    obtain ⟨t1, ht1⟩ := hf l x
    obtain ⟨t2, ht2⟩ := ih (f l x)
    exact ⟨t1 ++ t2, by rw [List.foldl_cons, ht2, ht1, List.append_assoc]⟩

theorem addModule_extends (deps : Nat → List Nat) :
    ∀ (fuel : Nat) (l : List Nat) (m : Nat),
      ∃ t, addModule deps fuel l m = l ++ t := by
  intro fuel
  induction fuel with
  | zero => intro l m; exact ⟨[], by simp [addModule]⟩
  | succ n ih =>
    intro l m
    by_cases hm : m ∈ l
    · exact ⟨[], by simp [addModule, hm]⟩
    · obtain ⟨t, ht⟩ := foldl_extends (addModule deps n) (fun l x => ih l x) (deps m) l
      exact ⟨t ++ [m], by simp [addModule, hm, ht]⟩

theorem mem_addModule_of_mem (deps : Nat → List Nat) (fuel : Nat)
    (l : List Nat) (m x : Nat) (hx : x ∈ l) : x ∈ addModule deps fuel l m := by
  obtain ⟨t, ht⟩ := addModule_extends deps fuel l m
  rw [ht]
  exact List.mem_append_left _ hx

theorem mem_foldl_of_mem (deps : Nat → List Nat) (n : Nat)
    (ms l : List Nat) (x : Nat) (hx : x ∈ l) :
    x ∈ ms.foldl (addModule deps n) l := by
  obtain ⟨t, ht⟩ := foldl_extends (addModule deps n)
    (fun l' y => addModule_extends deps n l' y) ms l
  rw [ht]
  exact List.mem_append_left _ hx

theorem addModule_self_mem (deps : Nat → List Nat) (fuel : Nat)
    (l : List Nat) (m : Nat) : m ∈ addModule deps (fuel + 1) l m := by
  by_cases hm : m ∈ l
  · simp [addModule, hm]
  · simp [addModule, hm]

theorem foldl_adds_deps (deps : Nat → List Nat) (n : Nat) :
    ∀ (ms l : List Nat) (d : Nat), d ∈ ms →
      d ∈ ms.foldl (addModule deps (n + 1)) l := by
  intro ms
  induction ms with
  | nil => intro l d hd; cases hd
  | cons x rest ih =>
    intro l d hd
    rcases List.mem_cons.mp hd with rfl | hd'
    · exact mem_foldl_of_mem deps (n + 1) rest _ d (addModule_self_mem deps n l d)
    · exact ih _ d hd'

theorem addModule_rank_bound (deps : Nat → List Nat) (rank : Nat → Nat)
    (hrank : ∀ m d, d ∈ deps m → rank d < rank m) :
    ∀ (fuel : Nat) (l : List Nat) (m x : Nat),
      x ∈ addModule deps fuel l m → x ∈ l ∨ rank x ≤ rank m := by
  intro fuel
  induction fuel with
  | zero => intro l m x hx; exact Or.inl (by simpa [addModule] using hx)
  | succ n ih =>
    intro l m x hx
    by_cases hm : m ∈ l
    · exact Or.inl (by simpa [addModule, hm] using hx)
    · rw [show addModule deps (n + 1) l m
            = ((deps m).foldl (addModule deps n) l) ++ [m] by
          simp [addModule, hm]] at hx
      rcases List.mem_append.mp hx with hx' | hx'
      · have aux : ∀ (ms l' : List Nat), x ∈ ms.foldl (addModule deps n) l' →
            x ∈ l' ∨ ∃ d ∈ ms, rank x ≤ rank d := by
          intro ms
          induction ms with
          | nil => intro l' h; exact Or.inl h
          | cons d rest ihm =>
            intro l' h
            rcases ihm (addModule deps n l' d) h with h' | ⟨d', hd', hr⟩
            · rcases ih l' d x h' with h'' | hr
              · exact Or.inl h''
              · exact Or.inr ⟨d, List.mem_cons_self d rest, hr⟩
            · exact Or.inr ⟨d', List.mem_cons_of_mem d hd', hr⟩
        rcases aux (deps m) l hx' with h' | ⟨d, hd, hr⟩
        · exact Or.inl h'
        · exact Or.inr (le_of_lt (lt_of_le_of_lt hr (hrank m d hd)))
      · rcases List.mem_singleton.mp hx' with rfl
        exact Or.inr le_rfl

theorem foldl_rank_bound (deps : Nat → List Nat) (rank : Nat → Nat)
    (hrank : ∀ m d, d ∈ deps m → rank d < rank m) (n : Nat) :
    ∀ (ms l : List Nat) (x : Nat), x ∈ ms.foldl (addModule deps n) l →
      x ∈ l ∨ ∃ d ∈ ms, rank x ≤ rank d := by
  intro ms
  induction ms with
  | nil => intro l x h; exact Or.inl h
  | cons d rest ihm =>
    intro l x h
    rcases ihm (addModule deps n l d) x h with h' | ⟨d', hd', hr⟩
    · rcases addModule_rank_bound deps rank hrank n l d x h' with h'' | hr
      · exact Or.inl h''
      · exact Or.inr ⟨d, List.mem_cons_self d rest, hr⟩
    · exact Or.inr ⟨d', List.mem_cons_of_mem d hd', hr⟩

theorem depsBefore_nil (deps : Nat → List Nat) : depsBefore deps [] := by
  intro p x s hsplit
  exact absurd hsplit.symm (by simp)

theorem depsBefore_append_single (deps : Nat → List Nat) (L : List Nat)
    (m : Nat) (hL : depsBefore deps L) (hdeps : ∀ d ∈ deps m, d ∈ L) :
    depsBefore deps (L ++ [m]) := by
  intro p x s hsplit d hd
  rcases List.eq_nil_or_concat s with rfl | ⟨s', y, rfl⟩
  · have h2 : L ++ [m] = p ++ [x] := hsplit
    rcases List.append_inj' h2 rfl with ⟨rfl, hmx⟩
    rcases List.singleton_injective hmx with rfl
    exact hdeps d hd
  · have h2 : L ++ [m] = (p ++ x :: s') ++ [y] := by
      rw [hsplit, List.concat_eq_append, List.append_assoc]
      simp
    rcases List.append_inj' h2 rfl with ⟨hLp, _⟩
    exact hL p x s' hLp d hd

theorem addModule_inv (deps : Nat → List Nat) (rank : Nat → Nat)
    (hrank : ∀ m d, d ∈ deps m → rank d < rank m) :
    ∀ (fuel : Nat) (l : List Nat) (m : Nat), l.Nodup → depsBefore deps l →
      rank m < fuel →
      (addModule deps fuel l m).Nodup ∧ depsBefore deps (addModule deps fuel l m) := by
  intro fuel
  induction fuel with
  | zero => intro l m _ _ h; omega
  | succ n ih =>
    intro l m hnd hdb hrm
    by_cases hm : m ∈ l
    · rw [show addModule deps (n + 1) l m = l by simp [addModule, hm]]
      exact ⟨hnd, hdb⟩
    · rw [show addModule deps (n + 1) l m
          = ((deps m).foldl (addModule deps n) l) ++ [m] by simp [addModule, hm]]
      have hfold : ∀ (ms : List Nat), (∀ d ∈ ms, rank d < n) →
          ∀ l', l'.Nodup → depsBefore deps l' →
            ((ms.foldl (addModule deps n) l').Nodup ∧
              depsBefore deps (ms.foldl (addModule deps n) l')) := by
        intro ms
        induction ms with
        | nil => intro _ l' h1 h2; exact ⟨h1, h2⟩
        | cons d rest ihm =>
          intro hms l' h1 h2
          have hstep := ih l' d h1 h2 (hms d (List.mem_cons_self d rest))
          exact ihm (fun d' hd' => hms d' (List.mem_cons_of_mem d hd')) _
            hstep.1 hstep.2
      have hdeprank : ∀ d ∈ deps m, rank d < n := by
        intro d hd
        have := hrank m d hd
        omega
      have hLinv := hfold (deps m) hdeprank l hnd hdb
      have hmnot : m ∉ (deps m).foldl (addModule deps n) l := by
        intro hmem
        rcases foldl_rank_bound deps rank hrank n (deps m) l m hmem with h' | ⟨d, hd, hr⟩
        · exact hm h'
        · have := hrank m d hd
          omega
      have hdepsL : ∀ d ∈ deps m, d ∈ (deps m).foldl (addModule deps n) l := by
        intro d hd
        have h1 : rank d < n := hdeprank d hd
        obtain ⟨k, rfl⟩ : ∃ k, n = k + 1 := ⟨n - 1, by omega⟩
        exact foldl_adds_deps deps k (deps m) l d hd
      constructor
      · rw [List.nodup_append]
        exact ⟨hLinv.1, List.nodup_singleton m,
          by simpa [List.disjoint_singleton] using hmnot⟩
      · exact depsBefore_append_single deps _ m hLinv.2 hdepsL

/-- C10: `Builder::module::<T>()` leaves the module list unchanged when `T`
is already present, and when `T` is new it appends `T`'s dependencies
(recursively) before `T` itself; hence after any sequence of module calls
the list has no duplicates and every module appears only after all of its
dependencies.  `rank` is any ranking witnessing that the dependency graph
is acyclic (on a cyclic graph the source recursion would not terminate). -/
theorem module_list_invariant (deps : Nat → List Nat) (rank : Nat → Nat)
    (hrank : ∀ m d, d ∈ deps m → rank d < rank m) :
    (∀ fuel l m, m ∈ l → addModule deps fuel l m = l)
    ∧ (∀ fuel l m, l.Nodup → depsBefore deps l → rank m < fuel →
        (addModule deps fuel l m).Nodup ∧
          depsBefore deps (addModule deps fuel l m))
    ∧ ∀ ms : List Nat,
        (runCalls deps rank ms).Nodup ∧ depsBefore deps (runCalls deps rank ms) := by
  refine ⟨?_, addModule_inv deps rank hrank, ?_⟩
  · intro fuel l m hm
    cases fuel with
    | zero => rfl
    | succ n => simp [addModule, hm]
  · intro ms
    have aux : ∀ (ms' l : List Nat), l.Nodup → depsBefore deps l →
        ((ms'.foldl (fun l' m => addModule deps (rank m + 1) l' m) l).Nodup ∧
          depsBefore deps
            (ms'.foldl (fun l' m => addModule deps (rank m + 1) l' m) l)) := by
      intro ms'
      induction ms' with
      | nil => intro l h1 h2; exact ⟨h1, h2⟩
      | cons d rest ihm =>
        intro l h1 h2
        have hstep := addModule_inv deps rank hrank (rank d + 1) l d h1 h2
          (Nat.lt_succ_self _)
        exact ihm _ hstep.1 hstep.2
    exact aux ms [] List.nodup_nil (depsBefore_nil deps)

theorem module_list_invariant_witness :
    (runCalls (fun m => List.range m) id [3, 1]).Nodup ∧
      depsBefore (fun m => List.range m) (runCalls (fun m => List.range m) id [3, 1]) :=
  (module_list_invariant (fun m => List.range m) id
    (fun m d hd => by simpa using hd)).2.2 [3, 1]

/-! ### Entity registry (spec §3, §4.1)

The registry crate's source is not available here; the definitions below
are modelled from the specification. -/

/-- Modelled from the spec: per-slot registry state — the slot's current
generation counter, whether a live entity occupies it, and the live
entity's component bitmask (spec §3). -/
structure Slot where
  generation : Nat
  live : Bool
  mask : Nat
deriving DecidableEq, Repr

/-- Modelled from the spec: the state touched by the registry operations —
the slot table plus the component stores, a store entry being
`(variant id, owning entity, payload)` (spec §3: one store per type,
mapping entity to component value). -/
structure RegWorld where
  slots : List Slot
  store : List (VariantId × Entity × Nat)
deriving DecidableEq, Repr

/-- The generation currently recorded for slot `i` (0 for an index past the
table, which no handle ever carries). -/
def slotGen (w : RegWorld) (i : Nat) : Nat :=
  ((w.slots[i]?).map Slot.generation).getD 0

/-- Modelled from the spec: `get_info(entity)` returns `None` unless the
slot is live and its generation matches the handle's — the sole validity
check (spec §4.1). -/
def getInfo (w : RegWorld) (e : Entity) : Option EntityInfo :=
  (w.slots[e.index]?).bind fun s =>
    if s.live = true ∧ s.generation = e.generation then some ⟨s.mask⟩ else none

/-- Index of the first free (non-live) slot, if any. -/
def findFree (slots : List Slot) : Option Nat :=
  slots.findIdx? (fun s => !s.live)

/-- The bitmask accumulated by the builder's `with(...)` calls: OR of the
variant bits of the attached component types (spec §4.1). -/
def attachMask (atts : List (VariantId × Nat)) : Nat :=
  atts.foldl (fun acc a => acc ||| a.1.toMask) 0

/-- Modelled from the spec: `spawn(group)…with(...)…finish()` — recycle the
first freed slot, incrementing its generation (or reserve a brand-new
slot), write each attachment into its Component Store and OR its bit into
the entity's bitmask (spec §4.1). -/
def spawnEnt (w : RegWorld) (atts : List (VariantId × Nat)) : Entity × RegWorld :=
  match findFree w.slots with
  | some i =>
    let e : Entity := ⟨i, slotGen w i + 1⟩
    (e, ⟨w.slots.set i ⟨slotGen w i + 1, true, attachMask atts⟩,
         w.store ++ atts.map (fun a => (a.1, e, a.2))⟩)
  | none =>
    let e : Entity := ⟨w.slots.length, 0⟩
    (e, ⟨w.slots ++ [⟨0, true, attachMask atts⟩],
         w.store ++ atts.map (fun a => (a.1, e, a.2))⟩)

/-- Modelled from the spec: `destroy(entity)` — for a valid handle, remove
the bitmask entry, remove the entity's value from every Component Store
that held it, and increment the slot's generation; destroying an invalid
handle is a no-op (spec §4.1). -/
def destroy (w : RegWorld) (e : Entity) : RegWorld :=
  match getInfo w e with
  | some _ =>
    ⟨w.slots.set e.index ⟨e.generation + 1, false, 0⟩,
     w.store.filter (fun x => !(x.2.1 == e))⟩
  | none => w

/-- Whether the Component Store of type `t` holds a value for `e`. -/
def storeHas (w : RegWorld) (t : VariantId) (e : Entity) : Bool :=
  w.store.any (fun x => x.1 == t && x.2.1 == e)

/-- A registry operation issued after a destroy: another spawn (with its
attachments) or another destroy. -/
inductive Op where
  | spawnEntOp (atts : List (VariantId × Nat))
  | destroyOp (e : Entity)

def applyOp (w : RegWorld) : Op → RegWorld
  | .spawnEntOp atts => (spawnEnt w atts).2
  | .destroyOp e2 => destroy w e2

def applyOps (w : RegWorld) (ops : List Op) : RegWorld :=
  ops.foldl applyOp w

/-- A stale handle: its slot exists, the slot's generation has moved past
the handle's, and no store entry mentions it. -/
def staleIn (w : RegWorld) (e : Entity) : Prop :=
  e.index < w.slots.length ∧ e.generation < slotGen w e.index ∧
    ∀ x ∈ w.store, x.2.1 ≠ e

theorem getInfo_some_facts (w : RegWorld) (e : Entity) (info : EntityInfo)
    (hv : getInfo w e = some info) :
    e.index < w.slots.length ∧ slotGen w e.index = e.generation := by
  unfold getInfo at hv
  cases hgs : w.slots[e.index]? with
  | none => rw [hgs, Option.none_bind] at hv; cases hv
  | some s =>
    rw [hgs, Option.some_bind] at hv
    by_cases hc : s.live = true ∧ s.generation = e.generation
    · refine ⟨(List.getElem?_eq_some.mp hgs).1, ?_⟩
      unfold slotGen
      rw [hgs]
      simpa using hc.2
    · rw [if_neg hc] at hv; cases hv

theorem stale_getInfo_none (w : RegWorld) (e : Entity) (h : staleIn w e) :
    getInfo w e = none := by
  obtain ⟨hlt, hgen, _⟩ := h
  unfold getInfo
  cases hgs : w.slots[e.index]? with
  | none => rw [Option.none_bind]
  | some s =>
    have hsg : s.generation = slotGen w e.index := by
      unfold slotGen; rw [hgs]; rfl
    rw [Option.some_bind, if_neg]
    rintro ⟨_, hge⟩
    rw [hsg] at hge
    omega

theorem destroy_makes_stale (w : RegWorld) (e : Entity) (info : EntityInfo)
    (hv : getInfo w e = some info) : staleIn (destroy w e) e := by
  obtain ⟨hlt, _⟩ := getInfo_some_facts w e info hv
  unfold destroy
  rw [hv]
  refine ⟨?_, ?_, ?_⟩
  · show e.index < (w.slots.set e.index ⟨e.generation + 1, false, 0⟩).length
    rw [List.length_set]
    exact hlt
  · show e.generation <
      (((w.slots.set e.index ⟨e.generation + 1, false, 0⟩)[e.index]?).map
        Slot.generation).getD 0
    rw [List.getElem?_set_self hlt]
    simp
  · intro x hx
    have hb := (List.mem_filter.mp hx).2
    simpa using hb

theorem stale_spawnEnt (w : RegWorld) (e : Entity)
    (atts : List (VariantId × Nat)) (h : staleIn w e) :
    staleIn (spawnEnt w atts).2 e := by
  obtain ⟨hlt, hgen, hstore⟩ := h
  unfold spawnEnt
  cases hff : findFree w.slots with
  | some i =>
    refine ⟨?_, ?_, ?_⟩
    · show e.index <
        (w.slots.set i ⟨slotGen w i + 1, true, attachMask atts⟩).length
      rw [List.length_set]
      exact hlt
    · show e.generation <
        (((w.slots.set i ⟨slotGen w i + 1, true, attachMask atts⟩)[e.index]?).map
          Slot.generation).getD 0
      by_cases hie : i = e.index
      · rw [hie, List.getElem?_set_self hlt]
        simp only [Option.map_some', Option.getD_some]
        omega
      · rw [List.getElem?_set_ne hie]
        exact hgen
    · intro x hx
      have hx2 : x ∈ w.store ++ atts.map
          (fun a => (a.1, Entity.mk i (slotGen w i + 1), a.2)) := hx
      rcases List.mem_append.mp hx2 with hx' | hx'
      · exact hstore x hx'
      · rcases List.mem_map.mp hx' with ⟨a, _, rfl⟩
        intro hcontra
        have hg2 : e.generation = slotGen w i + 1 := by rw [← hcontra]
        have hi2 : e.index = i := by rw [← hcontra]
        rw [hi2] at hgen
        omega
  | none =>
    refine ⟨?_, ?_, ?_⟩
    · show e.index < (w.slots ++ [(⟨0, true, attachMask atts⟩ : Slot)]).length
      simp only [List.length_append, List.length_singleton]
      omega
    · show e.generation <
        (((w.slots ++ [(⟨0, true, attachMask atts⟩ : Slot)])[e.index]?).map
          Slot.generation).getD 0
      rw [List.getElem?_append, if_pos hlt]
      exact hgen
    · intro x hx
      have hx2 : x ∈ w.store ++ atts.map
          (fun a => (a.1, Entity.mk w.slots.length 0, a.2)) := hx
      rcases List.mem_append.mp hx2 with hx' | hx'
      · exact hstore x hx'
      · rcases List.mem_map.mp hx' with ⟨a, _, rfl⟩
        intro hcontra
        have hi2 : e.index = w.slots.length := by rw [← hcontra]
        omega

theorem stale_destroy (w : RegWorld) (e e2 : Entity) (h : staleIn w e) :
    staleIn (destroy w e2) e := by
  obtain ⟨hlt, hgen, hstore⟩ := h
  unfold destroy
  cases hv : getInfo w e2 with
  | none => exact ⟨hlt, hgen, hstore⟩
  | some info =>
    obtain ⟨hlt2, hgen2⟩ := getInfo_some_facts w e2 info hv
    refine ⟨?_, ?_, ?_⟩
    · show e.index < (w.slots.set e2.index ⟨e2.generation + 1, false, 0⟩).length
      rw [List.length_set]
      exact hlt
    · show e.generation <
        (((w.slots.set e2.index ⟨e2.generation + 1, false, 0⟩)[e.index]?).map
          Slot.generation).getD 0
      by_cases hie : e2.index = e.index
      · rw [hie, List.getElem?_set_self hlt]
        simp only [Option.map_some', Option.getD_some]
        rw [hie] at hgen2
        omega
      · rw [List.getElem?_set_ne hie]
        exact hgen
    · intro x hx
      exact hstore x (List.mem_filter.mp hx).1

theorem spawnEnt_ne_stale (w : RegWorld) (e : Entity)
    (atts : List (VariantId × Nat)) (h : staleIn w e) :
    (spawnEnt w atts).1 ≠ e := by
  obtain ⟨hlt, hgen, _⟩ := h
  unfold spawnEnt
  cases hff : findFree w.slots with
  | some i =>
    intro hcontra
    have hg2 : e.generation = slotGen w i + 1 := by rw [← hcontra]
    have hi2 : e.index = i := by rw [← hcontra]
    rw [hi2] at hgen
    omega
  | none =>
    intro hcontra
    have hi2 : e.index = w.slots.length := by rw [← hcontra]
    omega

theorem stale_applyOps (w : RegWorld) (e : Entity) (h : staleIn w e) :
    ∀ ops : List Op, staleIn (applyOps w ops) e := by
  intro ops
  induction ops generalizing w with
  | nil => exact h
  | cons op rest ih =>
    show staleIn (applyOps (applyOp w op) rest) e
    apply ih
    cases op with
    | spawnEntOp atts => exact stale_spawnEnt w e atts h
    | destroyOp e2 => exact stale_destroy w e e2 h

/-- C7: once a live entity is destroyed, `get_info` on its handle returns
`none`, every Component Store entry for it is gone, and — whatever spawns
and destroys happen afterwards, including recycling its slot — the old
handle keeps failing every lookup, and no newly spawned entity ever equals
it (the slot's generation only moves forward past the handle's). -/
theorem destroy_invalidates_forever (w : RegWorld) (e : Entity)
    (info : EntityInfo) (hv : getInfo w e = some info) :
    ∀ ops : List Op,
      getInfo (applyOps (destroy w e) ops) e = none
      ∧ (∀ t, storeHas (applyOps (destroy w e) ops) t e = false)
      ∧ ∀ atts, (spawnEnt (applyOps (destroy w e) ops) atts).1 ≠ e := by
  intro ops
  have hstale := stale_applyOps (destroy w e) e
    (destroy_makes_stale w e info hv) ops
  refine ⟨stale_getInfo_none _ _ hstale, ?_,
    fun atts => spawnEnt_ne_stale _ _ atts hstale⟩
  intro t
  obtain ⟨_, _, hstore⟩ := hstale
  unfold storeHas
  rw [List.any_eq_false]
  intro x hx
  have hne := hstore x hx
  simp [hne]

theorem destroy_invalidates_forever_witness :
    getInfo (applyOps
        (destroy ⟨[⟨0, true, 1⟩], [(0, ⟨0, 0⟩, 42)]⟩ ⟨0, 0⟩)
        [Op.spawnEntOp [(0, 5)]]) ⟨0, 0⟩ = none :=
  (destroy_invalidates_forever ⟨[⟨0, true, 1⟩], [(0, ⟨0, 0⟩, 42)]⟩ ⟨0, 0⟩ ⟨1⟩
    (by decide) [Op.spawnEntOp [(0, 5)]]).1

/-! ### Component-store guard layer (spec §4.2, §7)

The guard layer's source is not available here; it is modelled from the
specification as a reader/writer lock automaton keyed by component-variant
id (spec §9: "an explicit reader/writer lock keyed by component-variant
ID"). -/

/-- Modelled from the spec: the runtime borrow state of one component
type's store — free, held by `n` read guards, or held by the one write
guard (spec §4.2). -/
inductive LockState where
  | free : LockState
  | reading (n : Nat) : LockState
  | writing : LockState
deriving DecidableEq, Repr

/-- Modelled from the spec: acquiring a read guard — allowed alongside any
number of other read guards, rejected while a write guard is out
(spec §4.2).  `none` models the fatal borrow-conflict abort (spec §7); the
acquisition itself always returns immediately, it never blocks. -/
def acquireRead : LockState → Option LockState
  | .free => some (.reading 1)
  | .reading n => some (.reading (n + 1))
  | .writing => none

/-- Modelled from the spec: acquiring a write guard — exclusive against
every other guard (read or write) on the same type; a conflict fails fast
(`none`), it is not retried or silently serialized (spec §4.2, §7). -/
def acquireWrite : LockState → Option LockState
  | .free => some .writing
  | .reading _ => none
  | .writing => none

/-- The lock table: one `LockState` per component variant id. -/
def LockTable := VariantId → LockState

/-- Acquire a read guard on type `t`, leaving every other type's lock
untouched. -/
def acquireReadAt (L : LockTable) (t : VariantId) : Option LockTable :=
  (acquireRead (L t)).map fun s => Function.update L t s

/-- Acquire a write guard on type `t`, leaving every other type's lock
untouched. -/
def acquireWriteAt (L : LockTable) (t : VariantId) : Option LockTable :=
  (acquireWrite (L t)).map fun s => Function.update L t s

/-- C8: read guards on a type coexist in any number (a new read succeeds
whenever no writer is out, pushing the reader count up by one); acquiring a
write guard while any guard on that type is outstanding returns the
failure value at once — fail fast, never blocking or queueing; and guard
acquisition neither inspects nor changes any other component type's lock,
so guards on distinct types never conflict. -/
theorem guard_discipline (L : LockTable) (t : VariantId) :
    (L t ≠ .writing → (acquireReadAt L t).isSome = true)
    ∧ (∀ n, L t = .reading n → ∃ L2, acquireReadAt L t = some L2 ∧
        L2 t = .reading (n + 1))
    ∧ (L t ≠ .free → acquireWriteAt L t = none)
    ∧ (L t = .free → ∃ L2, acquireWriteAt L t = some L2 ∧ L2 t = .writing)
    ∧ (∀ L2, acquireWriteAt L t = some L2 → ∀ u, u ≠ t → L2 u = L u)
    ∧ (∀ L2, acquireReadAt L t = some L2 → ∀ u, u ≠ t → L2 u = L u)
    ∧ ∀ L3 : LockTable, L3 t = L t →
        (acquireWriteAt L3 t).isSome = (acquireWriteAt L t).isSome := by
  refine ⟨?_, ?_, ?_, ?_, ?_, ?_, ?_⟩
  · intro h
    unfold acquireReadAt
    cases hs : L t with
    | free => simp [acquireRead]
    | reading n => simp [acquireRead]
    | writing => exact absurd hs h
  · intro n hs
    unfold acquireReadAt
    rw [hs]
    exact ⟨Function.update L t (.reading (n + 1)), by simp [acquireRead],
      Function.update_same t _ L⟩
  · intro h
    unfold acquireWriteAt
    cases hs : L t with
    | free => exact absurd hs h
    | reading n => simp [acquireWrite]
    | writing => simp [acquireWrite]
  · intro hs
    unfold acquireWriteAt
    rw [hs]
    exact ⟨Function.update L t .writing, by simp [acquireWrite],
      Function.update_same t _ L⟩
  · intro L2 hacq u hu
    unfold acquireWriteAt at hacq
    cases hs : acquireWrite (L t) with
    | none => rw [hs] at hacq; cases hacq
    | some s =>
      rw [hs, Option.map_some'] at hacq
      cases hacq
      exact Function.update_noteq hu s L
  · intro L2 hacq u hu
    unfold acquireReadAt at hacq
    cases hs : acquireRead (L t) with
    | none => rw [hs] at hacq; cases hacq
    | some s =>
      rw [hs, Option.map_some'] at hacq
      cases hacq
      exact Function.update_noteq hu s L
  · intro L3 hsame
    unfold acquireWriteAt
    rw [hsame]
    cases acquireWrite (L t) <;> rfl

theorem guard_discipline_witness :
    acquireWriteAt (Function.update (fun _ => LockState.free) 0
      (LockState.reading 1)) 0 = none :=
  (guard_discipline (Function.update (fun _ => LockState.free) 0
      (LockState.reading 1)) 0).2.2.1
    (by rw [Function.update_same]; intro h; cases h)

/-! ### Schedule (spec §4.4, §5)

The scheduler's source is not available here; it is modelled from the
specification. -/

/-- Modelled from the spec: a `System` is one unit of tick logic invoked as
`run(world, dt)`; its whole effect is its transformation of the world
state (spec §4.4).  World and delta-time types are abstract. -/
structure SystemM (W D : Type) where
  run : W → D → W

/-- Modelled from the spec: a `ScheduleBlock` is the ordered list of
systems appended by `.system(...)` calls (spec §3, §4.4). -/
def ScheduleBlock (W D : Type) := List (SystemM W D)

/-- Modelled from the spec: `ScheduleBlock::execute(world, dt)` runs the
systems one after another in append order, each receiving the state the
previous one left behind (spec §4.4: strictly sequential, single-threaded,
once per tick). -/
def scheduleExec {W D : Type} (sched : ScheduleBlock W D) (w : W) (dt : D) : W :=
  sched.foldl (fun acc sys => sys.run acc dt) w

/-- C9: schedule execution is strictly sequential in append order — the
last-appended system runs last on the accumulated state; any two adjacent
systems chain directly, so system N+1's reads see exactly the state system
N committed within the same tick; and a schedule of logging systems logs
each system exactly once, in append order. -/
theorem schedule_sequential {W D : Type} (pre post : List (SystemM W D))
    (s1 s2 : SystemM W D) (w : W) (dt : D) (ids : List Nat) :
    (scheduleExec (pre ++ [s1]) w dt = s1.run (scheduleExec pre w dt) dt)
    ∧ (scheduleExec (pre ++ s1 :: s2 :: post) w dt =
        scheduleExec post (s2.run (s1.run (scheduleExec pre w dt) dt) dt) dt)
    ∧ scheduleExec
        (ids.map fun i => SystemM.mk (fun log (_ : D) => log ++ [i])) [] dt
        = ids := by
  have hlog : ∀ (l acc : List Nat),
      scheduleExec (l.map fun i => SystemM.mk (fun log (_ : D) => log ++ [i]))
        acc dt = acc ++ l := by
    intro l
    induction l with
    | nil => intro acc; simp [scheduleExec]
    | cons i rest ih =>
      intro acc
      show scheduleExec (rest.map fun j =>
        SystemM.mk (fun log (_ : D) => log ++ [j])) (acc ++ [i]) dt = _
      rw [ih (acc ++ [i])]
      simp
  refine ⟨?_, ?_, ?_⟩
  · simp [scheduleExec, List.foldl_append]
  · simp [scheduleExec, List.foldl_append]
  · simpa using hlog ids []

end Ethereal
